import Mathlib

set_option maxHeartbeats 1000000

/-!
Shallow embedding of the `simple_duration_parse` crate (src/lib.rs).

The crate exposes `parse_secs : &str -> Result<u64, Error>`, a single-pass
character scanner that buffers decimal digits, resolves unit suffixes
(`s`, `m`, `h`, `d`) against a strict descending-magnitude order state, and
accumulates magnitude-scaled second counts into a running total.

Machine integers (`u64`) are modelled as `Nat` with explicit reduction
modulo `2 ^ 64` at every arithmetic step, matching wrapping semantics.
-/

/-- The error enum `Error` of src/lib.rs. -/
inductive Error where
  | OutOfOrder
  | AlreadySeen
  | InvalidData
deriving DecidableEq, Repr

/-- The `Magnitude` enum local to `parse_secs` in src/lib.rs. -/
inductive Magnitude where
  | Second
  | Minute
  | Hour
  | Day
deriving DecidableEq, Repr

/-- Discriminant order of `Magnitude`; the derived Rust `PartialOrd` compares
by declaration order `Second < Minute < Hour < Day`. -/
def Magnitude.rank : Magnitude → Nat
  | .Second => 0
  | .Minute => 1
  | .Hour => 2
  | .Day => 3

/-- `Magnitude::to_secs` of src/lib.rs. -/
def Magnitude.toSecs : Magnitude → Nat
  | .Second => 1
  | .Minute => 60
  | .Hour => 60 * 60
  | .Day => 60 * 60 * 24

/-- The modulus of `u64` arithmetic. -/
def u64Mod : Nat := 2 ^ 64

/-- Wrapping `u64` addition. -/
def u64Add (a b : Nat) : Nat := (a + b) % u64Mod

/-- Wrapping `u64` multiplication. -/
def u64Mul (a b : Nat) : Nat := (a * b) % u64Mod

/-- `char::to_digit(10)` of the Rust standard library, restricted to the
decimal digits, combined with the `u64::from` conversion used in `Buf::parse`. -/
def charToDigit (c : Char) : Option Nat :=
  if c.isDigit then some (c.toNat - 48) else none

/-- `Buf::parse` of src/lib.rs: empty buffer yields `None`; otherwise the
digits are folded most-significant-first (`10 * a + c`) and the result is
scaled by the magnitude, all in `u64` arithmetic. -/
def Buf.parse (b : List Char) (magnitude : Magnitude) : Option Nat :=
  if b.isEmpty then none
  else
    some (u64Mul ((b.filterMap charToDigit).foldl (fun a c => u64Add (u64Mul 10 a) c) 0)
      magnitude.toSecs)

/-- `Order::verify` of src/lib.rs: the state holds at most the most recently
resolved magnitude; a strictly finer new magnitude is accepted and remembered,
an equal one fails with `AlreadySeen`, a coarser one with `OutOfOrder`.
Returns the accepted magnitude together with the updated state. -/
def Order.verify (o : Option Magnitude) (magnitude : Magnitude) :
    Except Error (Magnitude × Option Magnitude) :=
  match o with
  | some a =>
    if magnitude.rank < a.rank then .ok (magnitude, some magnitude)
    else if a = magnitude then .error .AlreadySeen
    else .error .OutOfOrder
  | none => .ok (magnitude, some magnitude)

/-- The unit-suffix classification performed by the match arms
`('s', ..) | ('m', ..) | ('h', ..) | ('d', ..)` of the scanner loop. -/
def charMagnitude (c : Char) : Option Magnitude :=
  if c = 's' then some .Second
  else if c = 'm' then some .Minute
  else if c = 'h' then some .Hour
  else if c = 'd' then some .Day
  else none

/-- The scanner loop of `parse_secs` in src/lib.rs, one state-passing step per
character. `buf` is the digit buffer `Buf`, `order` the `Order` state, `acc`
the running total; the list argument is the remaining input, whose head pairs
with `iter.peek()` as the `(left, peek)` scrutinee of the source match. -/
def parseStep (order : Option Magnitude) (buf : List Char) (acc : Nat) :
    List Char → Except Error Nat
  | [] => .ok acc
  | left :: rest =>
    match charMagnitude left with
    | some mag =>
      if buf.isEmpty then .error .InvalidData
      else
        match Order.verify order mag with
        | .error e => .error e
        | .ok (m, order') =>
          match Buf.parse buf m with
          | some d => parseStep order' [] (u64Add acc d) rest
          | none => .ok acc
    | none =>
      if left.isDigit then
        match rest with
        | [] => .error .InvalidData
        | _ :: _ =>
          if buf.isEmpty && (left == '0') then .error .InvalidData
          else parseStep order (buf ++ [left]) acc rest
      else parseStep order buf acc rest

/-- `parse_secs` of src/lib.rs. -/
def parse_secs (input : String) : Except Error Nat :=
  parseStep none [] 0 input.data

/-!
Specification-side vocabulary: ignorable characters, well-formed unit groups,
their rendering into input text, and decimal renderings of numbers.
-/

/-- A character the scanner skips silently: neither a decimal digit nor one of
the four unit suffixes. -/
def Ignorable (c : Char) : Bool := !c.isDigit && (charMagnitude c).isNone

/-- The unit-suffix character denoting a magnitude. -/
def Magnitude.char : Magnitude → Char
  | .Second => 's'
  | .Minute => 'm'
  | .Hour => 'h'
  | .Day => 'd'

/-- The numeric value of a decimal digit character. -/
def digitVal (c : Char) : Nat := c.toNat - 48

/-- Fold a list of digit values most-significant-first into a number. -/
def foldDigits (a : Nat) (l : List Nat) : Nat := l.foldl (fun a c => 10 * a + c) a

/-- The same fold performed in wrapping `u64` arithmetic, as `Buf::parse` does. -/
def foldDigitsMod (a : Nat) (l : List Nat) : Nat :=
  l.foldl (fun a c => u64Add (u64Mul 10 a) c) a

/-- Standard positional decimal value of a digit-character string. -/
def digitsVal (ds : List Char) : Nat := foldDigits 0 (ds.map digitVal)

/-- One `<digits><unit>` group of the input format. -/
structure UnitGroup where
  digits : List Char
  mag : Magnitude

/-- The characters a group contributes to the input. -/
def UnitGroup.render (g : UnitGroup) : List Char := g.digits ++ [g.mag.char]

/-- The number of seconds a group denotes. -/
def UnitGroup.value (g : UnitGroup) : Nat := digitsVal g.digits * g.mag.toSecs

/-- Well-formedness of a group: a non-empty run of decimal digits with no
leading zero. -/
def UnitGroup.wf (g : UnitGroup) : Bool :=
  !g.digits.isEmpty && g.digits.all Char.isDigit && !(g.digits.head? == some '0')

/-- Render a list of groups, each preceded by its separator text, followed by
trailing text. -/
def renderSeq : List (List Char × UnitGroup) → List Char → List Char
  | [], trail => trail
  | (sep, g) :: rest, trail => sep ++ g.render ++ renderSeq rest trail

/-- Total number of seconds denoted by a group sequence. -/
def seqValue (l : List (List Char × UnitGroup)) : Nat := (l.map fun p => p.2.value).sum

/-- Strictly descending magnitudes, relative to an optional previous one. -/
def descendingFrom : Option Magnitude → List Magnitude → Bool
  | _, [] => true
  | none, m :: rest => descendingFrom (some m) rest
  | some p, m :: rest => decide (m.rank < p.rank) && descendingFrom (some m) rest

/-- The decimal rendering of a natural number, most-significant digit first. -/
def renderNum (n : Nat) : List Char :=
  if n = 0 then ['0']
  else (Nat.digits 10 n).reverse.map fun d => Char.ofNat (48 + d)

/-- Whether a parse result is an error. -/
def resultIsErr : Except Error Nat → Bool
  | .ok _ => false
  | .error _ => true

instance : DecidableEq (Except Error Nat) := fun a b =>
  match a, b with
  | .ok x, .ok y =>
    if h : x = y then isTrue (by rw [h])
    else isFalse (fun hc => h (Except.ok.inj hc))
  | .error x, .error y =>
    if h : x = y then isTrue (by rw [h])
    else isFalse (fun hc => h (Except.error.inj hc))
  | .ok _, .error _ => isFalse (fun hc => Except.noConfusion hc)
  | .error _, .ok _ => isFalse (fun hc => Except.noConfusion hc)

/-!
Basic lemmas: wrapping arithmetic below the modulus, character classification,
and one-step unfoldings of the scanner loop.
-/

theorem u64Add_eq_of_lt {a b : Nat} (h : a + b < u64Mod) : u64Add a b = a + b := by
  simp [u64Add, Nat.mod_eq_of_lt h]

theorem u64Mul_eq_of_lt {a b : Nat} (h : a * b < u64Mod) : u64Mul a b = a * b := by
  simp [u64Mul, Nat.mod_eq_of_lt h]

theorem toSecs_pos (m : Magnitude) : 1 ≤ m.toSecs := by
  cases m <;> simp [Magnitude.toSecs]

theorem charMagnitude_char (m : Magnitude) : charMagnitude m.char = some m := by
  cases m <;> rfl

theorem charMagnitude_digit (c : Char) (h : c.isDigit = true) :
    charMagnitude c = none := by
  unfold charMagnitude
  split_ifs with h1 h2 h3 h4
  · exact absurd (h1 ▸ h) (by decide)
  · exact absurd (h2 ▸ h) (by decide)
  · exact absurd (h3 ▸ h) (by decide)
  · exact absurd (h4 ▸ h) (by decide)
  · rfl

theorem unitChar_not_digit (m : Magnitude) : m.char.isDigit = false := by
  cases m <;> decide

theorem parseStep_nil (order : Option Magnitude) (buf : List Char) (acc : Nat) :
    parseStep order buf acc [] = .ok acc := rfl

theorem parseStep_unit_empty {x : Char} {mag : Magnitude}
    (order : Option Magnitude) (buf : List Char) (acc : Nat) (l : List Char)
    (hmag : charMagnitude x = some mag) (hbuf : buf.isEmpty = true) :
    parseStep order buf acc (x :: l) = .error .InvalidData := by
  simp [parseStep, hmag, hbuf]

theorem parseStep_unit_err {x : Char} {mag : Magnitude} {e : Error}
    {order : Option Magnitude} (buf : List Char) (acc : Nat) (l : List Char)
    (hmag : charMagnitude x = some mag) (hbuf : buf.isEmpty = false)
    (hver : Order.verify order mag = .error e) :
    parseStep order buf acc (x :: l) = .error e := by
  simp [parseStep, hmag, hbuf, hver]

theorem parseStep_unit_resolve {x : Char} {mag m : Magnitude} {d : Nat}
    {order order' : Option Magnitude} {buf : List Char} (acc : Nat) (l : List Char)
    (hmag : charMagnitude x = some mag) (hbuf : buf.isEmpty = false)
    (hver : Order.verify order mag = .ok (m, order'))
    (hparse : Buf.parse buf m = some d) :
    parseStep order buf acc (x :: l) = parseStep order' [] (u64Add acc d) l := by
  simp [parseStep, hmag, hbuf, hver, hparse]

theorem parseStep_digit_last {x : Char}
    (order : Option Magnitude) (buf : List Char) (acc : Nat)
    (hd : x.isDigit = true) :
    parseStep order buf acc [x] = .error .InvalidData := by
  simp [parseStep, charMagnitude_digit x hd, hd]

theorem parseStep_digit_zero {x : Char} {buf : List Char}
    (order : Option Magnitude) (acc : Nat) {l : List Char}
    (hd : x.isDigit = true) (hl : l ≠ [])
    (hcond : (buf.isEmpty && (x == '0')) = true) :
    parseStep order buf acc (x :: l) = .error .InvalidData := by
  obtain ⟨hd', tl, rfl⟩ := List.exists_cons_of_ne_nil hl
  simp [parseStep, charMagnitude_digit x hd, hd, hcond]

theorem parseStep_digit_cons {x : Char} {buf : List Char}
    (order : Option Magnitude) (acc : Nat) {l : List Char}
    (hd : x.isDigit = true) (hl : l ≠ [])
    (hcond : (buf.isEmpty && (x == '0')) = false) :
    parseStep order buf acc (x :: l) = parseStep order (buf ++ [x]) acc l := by
  obtain ⟨hd', tl, rfl⟩ := List.exists_cons_of_ne_nil hl
  simp [parseStep, charMagnitude_digit x hd, hd, hcond]

theorem parseStep_other {x : Char}
    (order : Option Magnitude) (buf : List Char) (acc : Nat) (l : List Char)
    (hmag : charMagnitude x = none) (hd : x.isDigit = false) :
    parseStep order buf acc (x :: l) = parseStep order buf acc l := by
  simp [parseStep, hmag, hd]

/-!
Fold lemmas: the wrapping digit fold agrees with the exact one below the
modulus, and `Buf::parse` computes the positional value scaled by the unit.
-/

theorem foldDigits_cons (a c : Nat) (l : List Nat) :
    foldDigits a (c :: l) = foldDigits (10 * a + c) l := rfl

theorem foldDigits_le (l : List Nat) : ∀ a, a ≤ foldDigits a l := by
  induction l with
  | nil => intro a; exact Nat.le_refl a
  | cons c t ih =>
    intro a
    calc a ≤ 10 * a + c := by omega
    _ ≤ foldDigits (10 * a + c) t := ih _
    _ = foldDigits a (c :: t) := rfl

theorem foldDigitsMod_eq (l : List Nat) :
    ∀ a, foldDigits a l < u64Mod → foldDigitsMod a l = foldDigits a l := by
  induction l with
  | nil => intro a _; rfl
  | cons c t ih =>
    intro a h
    have hfold : foldDigits (10 * a + c) t < u64Mod := by
      rw [← foldDigits_cons]; exact h
    have hlt : 10 * a + c < u64Mod := Nat.lt_of_le_of_lt (foldDigits_le t _) hfold
    have h10 : 10 * a < u64Mod := by omega
    have step : u64Add (u64Mul 10 a) c = 10 * a + c := by
      rw [u64Mul_eq_of_lt h10, u64Add_eq_of_lt hlt]
    calc foldDigitsMod a (c :: t)
        = foldDigitsMod (u64Add (u64Mul 10 a) c) t := rfl
      _ = foldDigitsMod (10 * a + c) t := by rw [step]
      _ = foldDigits (10 * a + c) t := ih _ hfold
      _ = foldDigits a (c :: t) := rfl

theorem filterMap_charToDigit (b : List Char) (h : ∀ c ∈ b, c.isDigit = true) :
    b.filterMap charToDigit = b.map digitVal := by
  induction b with
  | nil => rfl
  | cons c t ih =>
    have hc : c.isDigit = true := h c (by simp)
    simp only [List.filterMap_cons, List.map_cons, charToDigit, hc, if_true]
    rw [ih (fun x hx => h x (by simp [hx]))]
    rfl

theorem Buf.parse_eq (b : List Char) (m : Magnitude) (hne : b ≠ [])
    (hd : ∀ c ∈ b, c.isDigit = true) (hlt : digitsVal b * m.toSecs < u64Mod) :
    Buf.parse b m = some (digitsVal b * m.toSecs) := by
  have hempty : b.isEmpty = false := by
    cases b with
    | nil => exact absurd rfl hne
    | cons x t => rfl
  have hval : digitsVal b < u64Mod := by
    have h1 : digitsVal b * 1 ≤ digitsVal b * m.toSecs :=
      Nat.mul_le_mul_left _ (toSecs_pos m)
    rw [Nat.mul_one] at h1
    omega
  have hfold : foldDigitsMod 0 (b.map digitVal) = digitsVal b :=
    foldDigitsMod_eq _ 0 hval
  simp only [Buf.parse, hempty, Bool.false_eq_true, if_false,
    filterMap_charToDigit b hd]
  rw [show (b.map digitVal).foldl (fun a c => u64Add (u64Mul 10 a) c) 0
      = foldDigitsMod 0 (b.map digitVal) from rfl, hfold,
    u64Mul_eq_of_lt hlt]

/-!
The scanner skips ignorable text without touching its state, and consumes a
digit run by appending it to the buffer.
-/

theorem parseStep_skip (sep : List Char) :
    ∀ (order : Option Magnitude) (buf : List Char) (acc : Nat) (rest : List Char),
    (∀ c ∈ sep, Ignorable c = true) →
    parseStep order buf acc (sep ++ rest) = parseStep order buf acc rest := by
  induction sep with
  | nil => intros; rfl
  | cons c t ih =>
    intro order buf acc rest h
    have hc := h c (by simp)
    simp only [Ignorable, Bool.and_eq_true, Bool.not_eq_true', Option.isNone_iff_eq_none] at hc
    rw [List.cons_append, parseStep_other order buf acc (t ++ rest) hc.2 hc.1]
    exact ih order buf acc rest (fun x hx => h x (by simp [hx]))

theorem parseStep_digits (ds : List Char) :
    ∀ (order : Option Magnitude) (buf : List Char) (acc : Nat) (rest : List Char),
    rest ≠ [] →
    (∀ x ∈ ds, x.isDigit = true) →
    (buf.isEmpty = true → ds.head? ≠ some '0') →
    parseStep order buf acc (ds ++ rest) = parseStep order (buf ++ ds) acc rest := by
  induction ds with
  | nil => intro order buf acc rest _ _ _; simp
  | cons x t ih =>
    intro order buf acc rest hrest hds hz
    have hx : x.isDigit = true := hds x (by simp)
    have hcond : (buf.isEmpty && (x == '0')) = false := by
      cases hbuf : buf.isEmpty with
      | false => simp
      | true =>
        have hx0 : x ≠ '0' := by
          intro hcontra
          exact (hz hbuf) (by simp [hcontra])
        simp [hx0]
    have hl : t ++ rest ≠ [] := by
      intro hcontra
      exact hrest (List.append_eq_nil.mp hcontra).2
    rw [List.cons_append, parseStep_digit_cons order acc hx hl hcond]
    rw [ih order (buf ++ [x]) acc rest hrest (fun y hy => hds y (by simp [hy]))
      (by intro hemp; simp [List.isEmpty_eq_true] at hemp)]
    simp

/-!
Master lemma: scanning a rendered sequence of well-formed groups in strictly
descending magnitude order, interleaved with ignorable text, accumulates the
sum of the groups' scaled values.
-/

theorem parseStep_renderSeq (l : List (List Char × UnitGroup)) :
    ∀ (trail : List Char) (order : Option Magnitude) (acc : Nat),
    (∀ p ∈ l, (∀ c ∈ p.1, Ignorable c = true) ∧ p.2.wf = true) →
    (∀ c ∈ trail, Ignorable c = true) →
    descendingFrom order (l.map fun p => p.2.mag) = true →
    acc + seqValue l < u64Mod →
    parseStep order [] acc (renderSeq l trail) = .ok (acc + seqValue l) := by
  induction l with
  | nil =>
    intro trail order acc _ htrail _ _
    have hskip : parseStep order [] acc (trail ++ []) = parseStep order [] acc [] :=
      parseStep_skip trail order [] acc [] htrail
    rw [List.append_nil] at hskip
    simpa [renderSeq, seqValue] using hskip
  | cons p rest' ih =>
    obtain ⟨sep, g⟩ := p
    intro trail order acc hgroups htrail hdesc hfit
    have hg := hgroups (sep, g) (by simp)
    have hsep := hg.1
    have hwf := hg.2
    simp only [UnitGroup.wf, Bool.and_eq_true, Bool.not_eq_true',
      List.all_eq_true] at hwf
    obtain ⟨⟨hbufE, hdigits⟩, hhead0⟩ := hwf
    have hne : g.digits ≠ [] := by
      intro hcontra
      rw [hcontra] at hbufE
      simp at hbufE
    have hhead : g.digits.head? ≠ some '0' := by
      intro hcontra
      rw [hcontra] at hhead0
      simp at hhead0
    have hseq : seqValue ((sep, g) :: rest') = g.value + seqValue rest' := by
      simp [seqValue]
    have hval : g.value = digitsVal g.digits * g.mag.toSecs := rfl
    have hvfit : digitsVal g.digits * g.mag.toSecs < u64Mod := by
      rw [← hval]; rw [hseq] at hfit; omega
    have hmap : ((sep, g) :: rest').map (fun p => p.2.mag)
        = g.mag :: rest'.map (fun p => p.2.mag) := rfl
    have hdesc' : descendingFrom (some g.mag) (rest'.map fun p => p.2.mag) = true := by
      rw [hmap] at hdesc
      cases order with
      | none => exact hdesc
      | some prev =>
        simp only [descendingFrom, Bool.and_eq_true] at hdesc
        exact hdesc.2
    have hverify : Order.verify order g.mag = .ok (g.mag, some g.mag) := by
      cases order with
      | none => rfl
      | some prev =>
        rw [hmap] at hdesc
        simp only [descendingFrom, Bool.and_eq_true, decide_eq_true_eq] at hdesc
        simp [Order.verify, hdesc.1]
    have haddfit : acc + digitsVal g.digits * g.mag.toSecs < u64Mod := by
      rw [← hval]; rw [hseq] at hfit; omega
    rw [show renderSeq ((sep, g) :: rest') trail
        = sep ++ g.render ++ renderSeq rest' trail from rfl,
      List.append_assoc,
      parseStep_skip sep order [] acc _ hsep,
      show g.render = g.digits ++ [g.mag.char] from rfl,
      List.append_assoc, List.singleton_append,
      parseStep_digits g.digits order [] acc _ (by simp) hdigits (fun _ => hhead),
      List.nil_append,
      parseStep_unit_resolve acc _ (charMagnitude_char g.mag) hbufE hverify
        (Buf.parse_eq g.digits g.mag hne hdigits hvfit),
      u64Add_eq_of_lt haddfit,
      ih trail (some g.mag) (acc + digitsVal g.digits * g.mag.toSecs)
        (fun q hq => hgroups q (by simp [hq])) htrail hdesc'
        (by rw [hseq] at hfit; rw [← hval]; omega)]
    rw [hseq, ← hval]
    congr 1
    omega

/-!
Facts about decimal renderings: for a positive `n`, `renderNum n` is a
non-empty all-digit string with no leading zero whose positional value is `n`.
-/

theorem digitChar_isDigit (d : Nat) (h : d < 10) :
    (Char.ofNat (48 + d)).isDigit = true := by
  interval_cases d <;> decide

theorem digitChar_val (d : Nat) (h : d < 10) :
    digitVal (Char.ofNat (48 + d)) = d := by
  interval_cases d <;> decide

theorem digitChar_ne_zero (d : Nat) (h1 : d < 10) (h2 : d ≠ 0) :
    Char.ofNat (48 + d) ≠ '0' := by
  interval_cases d <;> simp_all

theorem foldDigits_reverse (L : List Nat) :
    ∀ a, foldDigits a L.reverse = a * 10 ^ L.length + Nat.ofDigits 10 L := by
  induction L with
  | nil => intro a; simp [foldDigits, Nat.ofDigits_nil]
  | cons d t ih =>
    intro a
    rw [List.reverse_cons]
    have hstep : foldDigits a (t.reverse ++ [d]) = 10 * foldDigits a t.reverse + d := by
      simp [foldDigits, List.foldl_append]
    rw [hstep, ih a, Nat.ofDigits_cons, List.length_cons]
    ring

theorem renderNum_ne_nil (n : Nat) : renderNum n ≠ [] := by
  unfold renderNum
  split_ifs with h
  · simp
  · simp [Nat.digits_ne_nil_iff_ne_zero.mpr h]

theorem renderNum_digits (n : Nat) : ∀ c ∈ renderNum n, c.isDigit = true := by
  unfold renderNum
  split_ifs with h
  · intro c hc
    simp at hc
    rw [hc]; decide
  · intro c hc
    simp only [List.mem_map, List.mem_reverse] at hc
    obtain ⟨d, hd, rfl⟩ := hc
    exact digitChar_isDigit d (Nat.digits_lt_base (by norm_num) hd)

theorem renderNum_head (n : Nat) (h : n ≠ 0) : (renderNum n).head? ≠ some '0' := by
  unfold renderNum
  rw [if_neg h]
  have hne : Nat.digits 10 n ≠ [] := Nat.digits_ne_nil_iff_ne_zero.mpr h
  have hrev : (Nat.digits 10 n).reverse.head? = (Nat.digits 10 n).getLast? :=
    List.head?_reverse _
  rw [List.head?_map, hrev, List.getLast?_eq_getLast_of_ne_nil hne]
  have hlast10 : (Nat.digits 10 n).getLast hne < 10 :=
    Nat.digits_lt_base (by norm_num) (List.getLast_mem hne)
  have hlast0 : (Nat.digits 10 n).getLast hne ≠ 0 := Nat.getLast_digit_ne_zero 10 h
  simp only [Option.map_some', ne_eq, Option.some_inj]
  exact digitChar_ne_zero _ hlast10 hlast0

theorem digitsVal_renderNum (n : Nat) : digitsVal (renderNum n) = n := by
  unfold renderNum
  split_ifs with h
  · rw [h]; decide
  · unfold digitsVal
    rw [List.map_map]
    have hmap : (Nat.digits 10 n).reverse.map ((fun c => digitVal c) ∘ fun d => Char.ofNat (48 + d))
        = ((Nat.digits 10 n).map fun d => d).reverse := by
      rw [← List.map_reverse]
      refine List.map_congr_left ?_
      intro d hd
      rw [List.mem_reverse] at hd
      exact digitChar_val d (Nat.digits_lt_base (by norm_num) hd)
    rw [hmap, List.map_id', foldDigits_reverse, Nat.ofDigits_digits]
    simp

/-!
Trailing text with no unit suffix, not ending in a digit, and whose first
digit is not a leading zero, is consumed without changing the outcome.
-/

theorem parseStep_tail_ok (tail : List Char) :
    ∀ (order : Option Magnitude) (buf : List Char) (acc : Nat),
    (∀ c ∈ tail, charMagnitude c = none) →
    (∀ c, tail.getLast? = some c → c.isDigit = false) →
    (buf.isEmpty = true → ∀ c, tail.find? Char.isDigit = some c → c ≠ '0') →
    parseStep order buf acc tail = .ok acc := by
  induction tail with
  | nil => intros; rfl
  | cons x t ih =>
    intro order buf acc h1 h2 h3
    have hmagx : charMagnitude x = none := h1 x (by simp)
    cases hdx : x.isDigit with
    | false =>
      rw [parseStep_other order buf acc t hmagx hdx]
      refine ih order buf acc (fun c hc => h1 c (by simp [hc])) ?_ ?_
      · intro c hc
        refine h2 c ?_
        cases t with
        | nil => simp at hc
        | cons y t' => rw [List.getLast?_cons_cons]; exact hc
      · intro hemp c hc
        exact h3 hemp c (by rw [List.find?_cons_of_neg _ (by simp [hdx])]; exact hc)
    | true =>
      cases t with
      | nil =>
        have : x.isDigit = false := h2 x (by simp)
        rw [hdx] at this
        exact absurd this (by simp)
      | cons y t' =>
        have hcond : (buf.isEmpty && (x == '0')) = false := by
          cases hbuf : buf.isEmpty with
          | false => simp
          | true =>
            have hx0 : x ≠ '0' :=
              h3 hbuf x (by rw [List.find?_cons_of_pos _ hdx])
            simp [hx0]
        rw [parseStep_digit_cons order acc hdx (by simp) hcond]
        refine ih order (buf ++ [x]) acc (fun c hc => h1 c (by simp [hc])) ?_ ?_
        · intro c hc
          exact h2 c (by rw [List.getLast?_cons_cons]; exact hc)
        · intro hemp
          simp at hemp

/-!
An input whose final character is a decimal digit never parses successfully:
either an earlier violation aborts the scan, or the final dangling digit is
flagged.
-/

theorem parseStep_lastDigit (l : List Char) :
    ∀ (order : Option Magnitude) (buf : List Char) (acc : Nat) (c : Char),
    l.getLast? = some c → c.isDigit = true →
    resultIsErr (parseStep order buf acc l) = true := by
  induction l with
  | nil => intro _ _ _ _ hlast _; simp at hlast
  | cons x t ih =>
    intro order buf acc c hlast hcdig
    cases t with
    | nil =>
      have hx : x = c := by simpa using hlast
      rw [parseStep_digit_last order buf acc (hx ▸ hcdig)]
      rfl
    | cons y t' =>
      have hlast' : (y :: t').getLast? = some c := by
        rw [List.getLast?_cons_cons] at hlast; exact hlast
      cases hmagx : charMagnitude x with
      | none =>
        cases hdx : x.isDigit with
        | false =>
          rw [parseStep_other order buf acc _ hmagx hdx]
          exact ih order buf acc c hlast' hcdig
        | true =>
          cases hcond : (buf.isEmpty && (x == '0')) with
          | true =>
            rw [parseStep_digit_zero order acc hdx (by simp) hcond]
            rfl
          | false =>
            rw [parseStep_digit_cons order acc hdx (by simp) hcond]
            exact ih order (buf ++ [x]) acc c hlast' hcdig
      | some mag =>
        cases hbuf : buf.isEmpty with
        | true =>
          rw [parseStep_unit_empty order buf acc _ hmagx hbuf]
          rfl
        | false =>
          cases hver : Order.verify order mag with
          | error e =>
            rw [parseStep_unit_err buf acc _ hmagx hbuf hver]
            rfl
          | ok p =>
            obtain ⟨m, o'⟩ := p
            obtain ⟨d, hparse⟩ : ∃ d, Buf.parse buf m = some d :=
              ⟨u64Mul ((buf.filterMap charToDigit).foldl
                  (fun a c => u64Add (u64Mul 10 a) c) 0) m.toSecs,
                by simp [Buf.parse, hbuf]⟩
            rw [parseStep_unit_resolve acc _ hmagx hbuf hver hparse]
            exact ih o' [] (u64Add acc d) c hlast' hcdig

/-!
Claim theorems.
-/

/-- Claim C1: every input made of zero or more well-formed groups
`<digits><unit>` (non-empty digit runs without leading zero) in strictly
descending magnitude order, interleaved with ignorable text, parses to the
sum over all groups of digit value times unit scale factor; in particular
the five quoted examples hold. The group total is assumed to fit in `u64`,
the contract's integer type (overflow is outside the spec's contract). -/
theorem claim_c1_format_sum (l : List (List Char × UnitGroup)) (trail : List Char)
    (hgroups : ∀ p ∈ l, (∀ c ∈ p.1, Ignorable c = true) ∧ p.2.wf = true)
    (htrail : ∀ c ∈ trail, Ignorable c = true)
    (hdesc : descendingFrom none (l.map fun p => p.2.mag) = true)
    (hfit : seqValue l < u64Mod) :
    parse_secs ⟨renderSeq l trail⟩ = .ok (seqValue l)
    ∧ parse_secs "1h 1m 1s" = .ok 3661
    ∧ parse_secs "1h 1s" = .ok 3601
    ∧ parse_secs "30m 59s" = .ok 1859
    ∧ parse_secs "7d 3m" = .ok 604980
    ∧ parse_secs "3d 5m" = .ok 259500 := by
  refine ⟨?_, rfl, rfl, rfl, rfl, rfl⟩
  have hmaster := parseStep_renderSeq l trail none 0 hgroups htrail hdesc (by omega)
  simpa [parse_secs] using hmaster

/-- Witness for C1: the format theorem applied to the two-group sequence
rendering "7d 3m". -/
theorem claim_c1_format_sum_witness :
    parse_secs ⟨renderSeq [(([] : List Char), (⟨['7'], Magnitude.Day⟩ : UnitGroup)),
        ([' '], ⟨['3'], Magnitude.Minute⟩)] []⟩
      = .ok (seqValue [(([] : List Char), (⟨['7'], Magnitude.Day⟩ : UnitGroup)),
        ([' '], ⟨['3'], Magnitude.Minute⟩)])
    ∧ parse_secs "1h 1m 1s" = .ok 3661
    ∧ parse_secs "1h 1s" = .ok 3601
    ∧ parse_secs "30m 59s" = .ok 1859
    ∧ parse_secs "7d 3m" = .ok 604980
    ∧ parse_secs "3d 5m" = .ok 259500 :=
  claim_c1_format_sum
    [(([] : List Char), (⟨['7'], Magnitude.Day⟩ : UnitGroup)),
      ([' '], ⟨['3'], Magnitude.Minute⟩)] []
    (by decide) (by decide) (by decide) (by decide)

/-- Claim C2 counterexample: at n = 0 the claim demands
`parse_secs("0s") == Ok(0)`, but the scanner rejects the leading zero with
`InvalidData`. -/
theorem claim_c2_counterexample :
    parse_secs ⟨renderNum 0 ++ ['s']⟩ = .error .InvalidData
    ∧ parse_secs ⟨renderNum 0 ++ ['s']⟩ ≠ .ok 0 := by
  refine ⟨rfl, by decide⟩

/-- Claim C2 as amended: for every positive n whose scaled values fit in
`u64`, parsing the decimal rendering of n followed by a unit suffix yields
the scaled value. -/
theorem claim_c2_unit_scaling (n : Nat) (h1 : 1 ≤ n) (h2 : 86400 * n < u64Mod) :
    parse_secs ⟨renderNum n ++ ['s']⟩ = .ok n
    ∧ parse_secs ⟨renderNum n ++ ['m']⟩ = .ok (60 * n)
    ∧ parse_secs ⟨renderNum n ++ ['h']⟩ = .ok (3600 * n)
    ∧ parse_secs ⟨renderNum n ++ ['d']⟩ = .ok (86400 * n) := by
  have hn0 : n ≠ 0 := by omega
  have key : ∀ mag : Magnitude,
      parseStep none [] 0 (renderNum n ++ [mag.char]) = .ok (n * mag.toSecs) := by
    intro mag
    have hwf : (UnitGroup.mk (renderNum n) mag).wf = true := by
      simp only [UnitGroup.wf, Bool.and_eq_true, Bool.not_eq_true', List.all_eq_true]
      refine ⟨⟨?_, renderNum_digits n⟩, ?_⟩
      · cases hr : renderNum n with
        | nil => exact absurd hr (renderNum_ne_nil n)
        | cons a b => rfl
      · rw [beq_eq_false_iff_ne]
        exact renderNum_head n hn0
    have hfit : 0 + seqValue [([], ⟨renderNum n, mag⟩)] < u64Mod := by
      simp only [seqValue, List.map_cons, List.map_nil, List.sum_cons, List.sum_nil,
        UnitGroup.value, digitsVal_renderNum, Nat.zero_add, Nat.add_zero]
      cases mag <;> simp only [Magnitude.toSecs] <;> omega
    have hmaster := parseStep_renderSeq [([], ⟨renderNum n, mag⟩)] [] none 0
      (by
        intro p hp
        simp only [List.mem_singleton] at hp
        rw [hp]
        exact ⟨by simp, hwf⟩)
      (by simp) (by rfl) hfit
    simp only [renderSeq, UnitGroup.render, List.nil_append, List.append_nil,
      seqValue, List.map_cons, List.map_nil, List.sum_cons, List.sum_nil,
      UnitGroup.value, digitsVal_renderNum, Nat.zero_add, Nat.add_zero] at hmaster
    exact hmaster
  have hs := key Magnitude.Second
  have hm := key Magnitude.Minute
  have hh := key Magnitude.Hour
  have hd := key Magnitude.Day
  simp only [Magnitude.char, Magnitude.toSecs] at hs hm hh hd
  refine ⟨?_, ?_, ?_, ?_⟩
  · show parseStep none [] 0 (renderNum n ++ ['s']) = .ok n
    rw [hs, Nat.mul_one]
  · show parseStep none [] 0 (renderNum n ++ ['m']) = .ok (60 * n)
    rw [hm, Nat.mul_comm]
  · show parseStep none [] 0 (renderNum n ++ ['h']) = .ok (3600 * n)
    rw [hh]
    norm_num [Nat.mul_comm]
  · show parseStep none [] 0 (renderNum n ++ ['d']) = .ok (86400 * n)
    rw [hd]
    norm_num [Nat.mul_comm]

/-- Witness for the amended C2 at n = 5. -/
theorem claim_c2_unit_scaling_witness :
    parse_secs ⟨renderNum 5 ++ ['s']⟩ = .ok 5
    ∧ parse_secs ⟨renderNum 5 ++ ['m']⟩ = .ok (60 * 5)
    ∧ parse_secs ⟨renderNum 5 ++ ['h']⟩ = .ok (3600 * 5)
    ∧ parse_secs ⟨renderNum 5 ++ ['d']⟩ = .ok (86400 * 5) :=
  claim_c2_unit_scaling 5 (by decide) (by decide)

/-- Claim C3 counterexample: "1s 0x" satisfies the claim's hypotheses (the
text after the resolved group "1s" contains no unit suffix and its final
character 'x' is not a digit), yet the scanner rejects the '0' read with an
empty buffer instead of returning Ok(1). -/
theorem claim_c3_counterexample :
    parse_secs "1s 0x" = .error .InvalidData ∧ parse_secs "1s 0x" ≠ .ok 1 := by
  refine ⟨rfl, by decide⟩

/-- Claim C3 as amended: after the last resolved group, trailing text with no
unit suffix, not ending in a digit, and whose first digit (if any) is not
'0', leaves the accumulated total untouched; in particular the two quoted
inputs parse to the totals of their resolved groups. -/
theorem claim_c3_trailing_garbage (order : Option Magnitude) (acc : Nat)
    (tail : List Char)
    (h1 : ∀ c ∈ tail, charMagnitude c = none)
    (h2 : tail.getLast?.all (fun c => !c.isDigit) = true)
    (h3 : (tail.find? Char.isDigit).all (fun c => !(c == '0')) = true) :
    parseStep order [] acc tail = .ok acc
    ∧ parse_secs "1s foobar" = .ok 1
    ∧ parse_secs "1m 1 " = .ok 60 := by
  refine ⟨?_, rfl, rfl⟩
  refine parseStep_tail_ok tail order [] acc h1 ?_ ?_
  · intro c hc
    rw [hc] at h2
    simpa using h2
  · intro _ c hc
    rw [hc] at h3
    simpa using h3

/-- Witness for the amended C3: the state after resolving "1s", followed by
the trailing text " foobar". -/
theorem claim_c3_trailing_garbage_witness :
    parseStep (some Magnitude.Second) [] 1 " foobar".data = .ok 1
    ∧ parse_secs "1s foobar" = .ok 1
    ∧ parse_secs "1m 1 " = .ok 60 :=
  claim_c3_trailing_garbage (some Magnitude.Second) 1 " foobar".data
    (by decide) (by decide) (by decide)

/-- Claim C4 counterexample: "1m1m1" ends in a decimal digit, but the scan
aborts earlier at the repeated unit with AlreadySeen, not InvalidData. -/
theorem claim_c4_counterexample :
    parse_secs "1m1m1" = .error .AlreadySeen
    ∧ parse_secs "1m1m1" ≠ .error .InvalidData := by
  refine ⟨rfl, by decide⟩

/-- Claim C4 as amended: every input whose final character is a decimal digit
fails with some error (the dangling final digit is flagged InvalidData when
the scan reaches it, but an earlier violation may abort first with its own
error); in particular the two quoted inputs fail with InvalidData. -/
theorem claim_c4_dangling_digit (s : String) (c : Char)
    (hlast : s.data.getLast? = some c) (hdig : c.isDigit = true) :
    resultIsErr (parse_secs s) = true
    ∧ parse_secs "1m 1" = .error .InvalidData
    ∧ parse_secs "1s1" = .error .InvalidData :=
  ⟨parseStep_lastDigit s.data none [] 0 c hlast hdig, rfl, rfl⟩

/-- Witness for the amended C4 at the input "1". -/
theorem claim_c4_dangling_digit_witness :
    resultIsErr (parse_secs "1") = true
    ∧ parse_secs "1m 1" = .error .InvalidData
    ∧ parse_secs "1s1" = .error .InvalidData :=
  claim_c4_dangling_digit "1" '1' rfl rfl

/-- Claim C5: whenever the scanner reads '0' with an empty digit buffer and a
following character exists, it fails with InvalidData, whatever the order
state and total; "0s" and "06s" are rejected while "10s" is accepted. -/
theorem claim_c5_leading_zero :
    (∀ (order : Option Magnitude) (acc : Nat) (c : Char) (rest : List Char),
      parseStep order [] acc ('0' :: c :: rest) = .error .InvalidData)
    ∧ parse_secs "0s" = .error .InvalidData
    ∧ parse_secs "06s" = .error .InvalidData
    ∧ parse_secs "10s" = .ok 10 := by
  refine ⟨?_, rfl, rfl, rfl⟩
  intro order acc c rest
  exact parseStep_digit_zero order acc (by decide) (by simp) (by decide)

/-- Claim C6: a unit suffix resolving with a non-empty digit buffer against a
strictly finer previously remembered unit fails with OutOfOrder; in
particular `parse_secs "1s 1m"` does. -/
theorem claim_c6_out_of_order :
    (∀ (prev mag : Magnitude), prev.rank < mag.rank →
      ∀ (buf : List Char) (acc : Nat) (rest : List Char), buf ≠ [] →
      parseStep (some prev) buf acc (mag.char :: rest) = .error .OutOfOrder)
    ∧ parse_secs "1s 1m" = .error .OutOfOrder := by
  refine ⟨?_, rfl⟩
  intro prev mag hlt buf acc rest hbuf
  have hbufE : buf.isEmpty = false := by
    cases buf with
    | nil => exact absurd rfl hbuf
    | cons a b => rfl
  have hver : Order.verify (some prev) mag = .error .OutOfOrder := by
    have hnlt : ¬ mag.rank < prev.rank := by omega
    have hne : prev ≠ mag := by
      intro h
      rw [h] at hlt
      omega
    simp [Order.verify, hnlt, hne]
  exact parseStep_unit_err buf acc rest (charMagnitude_char mag) hbufE hver

/-- Witness for C6: minute after second, with '1' buffered. -/
theorem claim_c6_out_of_order_witness :
    parseStep (some Magnitude.Second) ['1'] 1 [Magnitude.Minute.char]
      = .error .OutOfOrder
    ∧ parse_secs "1s 1m" = .error .OutOfOrder :=
  ⟨claim_c6_out_of_order.1 Magnitude.Second Magnitude.Minute (by decide)
      ['1'] 1 [] (by simp),
    claim_c6_out_of_order.2⟩

/-- Claim C7 counterexample: in "1m 1s 1m" the unit m appears twice, each
time with a preceding digit group, yet the parse fails with OutOfOrder (the
order state only remembers the most recent unit, s), not AlreadySeen. -/
theorem claim_c7_counterexample :
    parse_secs "1m 1s 1m" = .error .OutOfOrder
    ∧ parse_secs "1m 1s 1m" ≠ .error .AlreadySeen := by
  refine ⟨rfl, by decide⟩

/-- Claim C7 as amended: a unit suffix resolving with a non-empty digit
buffer while being equal to the most recently resolved unit fails with
AlreadySeen; in particular `parse_secs "1s 1s"` does. A unit repeated after
an intervening finer unit instead fails with OutOfOrder. -/
theorem claim_c7_already_seen (mag : Magnitude) (buf : List Char) (acc : Nat)
    (rest : List Char) (hbuf : buf ≠ []) :
    parseStep (some mag) buf acc (mag.char :: rest) = .error .AlreadySeen
    ∧ parse_secs "1s 1s" = .error .AlreadySeen := by
  refine ⟨?_, rfl⟩
  have hbufE : buf.isEmpty = false := by
    cases buf with
    | nil => exact absurd rfl hbuf
    | cons a b => rfl
  have hver : Order.verify (some mag) mag = .error .AlreadySeen := by
    simp [Order.verify]
  exact parseStep_unit_err buf acc rest (charMagnitude_char mag) hbufE hver

/-- Witness for the amended C7: an immediately repeated second unit. -/
theorem claim_c7_already_seen_witness :
    parseStep (some Magnitude.Second) ['1'] 1 [Magnitude.Second.char]
      = .error .AlreadySeen
    ∧ parse_secs "1s 1s" = .error .AlreadySeen :=
  claim_c7_already_seen Magnitude.Second ['1'] 1 [] (by simp)

/-- Claim C8: a unit suffix read with an empty digit buffer fails with
InvalidData regardless of the order state, so the empty-buffer check
precedes the ordering checks; in particular "1s s" gives InvalidData, not
AlreadySeen. -/
theorem claim_c8_unit_empty_buffer :
    (∀ (order : Option Magnitude) (acc : Nat) (mag : Magnitude) (rest : List Char),
      parseStep order [] acc (mag.char :: rest) = .error .InvalidData)
    ∧ parse_secs "1s s" = .error .InvalidData := by
  refine ⟨?_, rfl⟩
  intro order acc mag rest
  exact parseStep_unit_empty order [] acc rest (charMagnitude_char mag) rfl

/-- Claim C9: the empty input parses to Ok(0). -/
theorem claim_c9_empty_input : parse_secs "" = .ok 0 := rfl

/-- Claim C10: ignorable characters pass through the scanner without touching
the digit buffer, order state, or total, so digits separated by ignored
characters concatenate into one group; in particular "1 2s" parses to 12 and
"1 s" to 1. -/
theorem claim_c10_ignorable_keeps_buffer (sep : List Char)
    (order : Option Magnitude) (buf : List Char) (acc : Nat) (rest : List Char)
    (hsep : ∀ c ∈ sep, Ignorable c = true) :
    parseStep order buf acc (sep ++ rest) = parseStep order buf acc rest
    ∧ parse_secs "1 2s" = .ok 12
    ∧ parse_secs "1 s" = .ok 1 :=
  ⟨parseStep_skip sep order buf acc rest hsep, rfl, rfl⟩

/-- Witness for C10: a space between the buffered digit '1' and "2s". -/
theorem claim_c10_ignorable_keeps_buffer_witness :
    parseStep none ['1'] 0 ([' '] ++ ['2', 's']) = parseStep none ['1'] 0 ['2', 's']
    ∧ parse_secs "1 2s" = .ok 12
    ∧ parse_secs "1 s" = .ok 1 :=
  claim_c10_ignorable_keeps_buffer [' '] none ['1'] 0 ['2', 's'] (by decide)
